import Mathlib

/-!
Verification development for the holopy parameter-fitting core and the
scatterer geometry subsystem.

Shallow embedding of:
* `holopy/analyze/fit_new.py` — `Parameter` (guess/limit/scale_factor,
  `scale`/`unscale`) and the `nmpfit` branch of `Minimizer.minimize`
  (per-parameter solver configuration, convergence flag).
* `holopy/scattering/scatterer/scatterer.py` — `Scatterer.translated`,
  `Scatterer.in_domain`, `Scatterer.index_at`, the
  `CenteredScatterer.parameters` / `from_parameters` flatten/unflatten pair
  (`_expand_parameters`, `extract_pars`) and `find_bounds`.

Python floats are modelled by real numbers (`ℝ`) where `np.sqrt` appears and
by rationals (`ℚ`) elsewhere, keys of python dicts by `List Char`, python
dicts by association lists with python-dict insert semantics, and raised
exceptions by `Except` errors.
-/

namespace Holopy

/-- Exceptions raised by the code under analysis.  `valueError` stands for
numpy broadcast `ValueError`s, `keyError` for python `KeyError`s,
`nameError` for reading a never-assigned local, `typeError` for python
`TypeError`s. -/
inductive Err where
  | invalidParameterSpecification
  | invalidScatterer
  | valueError
  | keyError
  | nameError
  | typeError
  | outOfFuel
  deriving DecidableEq

/-! ## Parameter (fit_new.py lines 191-233) -/

/-- Model of `Parameter` from `fit_new.py`: name, optional guess, optional limit pair,
and the derived `scale_factor`. -/
structure Parameter where
  name : String
  guess : Option ℝ
  limit : Option (ℝ × ℝ)
  scale_factor : ℝ

/-- Constructor `Parameter.__init__`: `scale_factor = guess` when a guess is given, else
`np.sqrt(limit[0]*limit[1])` when a limit is given, else the constructor
raises `InvalidParameterSpecification`. -/
noncomputable def mkParameter (name : String) (guess : Option ℝ)
    (limit : Option (ℝ × ℝ)) : Except Err Parameter :=
  match guess with
  | some g => .ok ⟨name, guess, limit, g⟩
  | none =>
    match limit with
    | some (lo, hi) => .ok ⟨name, guess, limit, Real.sqrt (lo * hi)⟩
    | none => .error .invalidParameterSpecification

/-- Method `Parameter.scale`: `physical / self.scale_factor`. -/
noncomputable def Parameter.scale (p : Parameter) (physical : ℝ) : ℝ :=
  physical / p.scale_factor

/-- Method `Parameter.unscale`: `scaled * self.scale_factor`. -/
noncomputable def Parameter.unscale (p : Parameter) (scaled : ℝ) : ℝ :=
  scaled * p.scale_factor

/-! ## Minimizer (fit_new.py lines 156-187) -/

/-- One entry of the `nmp_pars` list (`parinfo` dict) built by
`Minimizer.minimize` for the `nmpfit` solver: parameter name, the
`limited` flags pair, the scaled `limits` pair (absent when the parameter
has no limit, matching the dict missing the key), and the initial `value`. -/
structure NmpPar where
  parname : String
  limited : Bool × Bool
  limits : Option (ℝ × ℝ)
  value : ℝ

/-- The per-parameter solver-configuration loop of `Minimizer.minimize`
(`nmpfit` branch).  For each parameter: when `limit` is present the code sets
`d['limited'] = [par.scale(l) is not None for l in par.limit]` — `scale` of a
number is a number, never `None`, so both flags are `True` — and
`d['limits'] = par.scale(np.array(par.limit))`; when `limit` is absent it
sets `limited = [False, False]` and no `limits` key.  Then `value` is the
scaled guess, and a missing guess raises `InvalidParameterSpecification`.
The actual `nmpfit.mpfit` call is the external solver collaborator and is
not modelled. -/
noncomputable def Minimizer.minimize :
    List Parameter → Except Err (List NmpPar)
  | [] => .ok []
  | par :: rest =>
    let (limited, limits) :=
      match par.limit with
      | some (lo, hi) => ((true, true), some (par.scale lo, par.scale hi))
      | none => ((false, false), none)
    match par.guess with
    | some g =>
      (Minimizer.minimize rest).map
        (fun cfgs => ⟨par.name, limited, limits, par.scale g⟩ :: cfgs)
    | none => .error .invalidParameterSpecification

/-- Model of `converged = fitresult.status < 4` (`fit_new.py` line 184); `status` is
the integer status code returned by the solver. -/
def convergedFlag (status : ℤ) : Bool :=
  status < 4

/-! ## Scatterer geometry (scatterer.py) -/

/-- A 3D point with rational coordinates. -/
abbrev Point := ℚ × ℚ × ℚ

/-- Elementwise difference of 3D points (`points - self.center`). -/
def psub (a b : Point) : Point :=
  (a.1 - b.1, a.2.1 - b.2.1, a.2.2 - b.2.2)

/-- One indicator function: a domain-membership test over (translated)
points, as held by the `Indicators` class. -/
abbrev Indicator := Point → Bool

/-- The assignment loop of `Scatterer.in_domain`: given the reversed
enumerated list of per-indicator boolean arrays, overwrite
`domains[np.nonzero(ind)] = i+1` for each entry in turn. -/
def assignDomains : List (ℕ × List Bool) → List ℕ → List ℕ
  | [], domains => domains
  | (i, ind) :: rest, domains =>
    assignDomains rest
      (List.zipWith (fun d b => if b then i + 1 else d) domains ind)

/-- Model of `Scatterer.in_domain`: evaluate every indicator on the points translated
by the center (`self.indicators(points - self.center)`), then iterate the
enumerated results in reverse, overwriting the domain of each point where the
indicator is true with `i+1`; domains start at 0. -/
def in_domain (indicators : List Indicator) (center : Point)
    (points : List Point) : List ℕ :=
  let results := indicators.map
    (fun test => (points.map (fun p => psub p center)).map test)
  assignDomains results.enum.reverse (points.map (fun _ => 0))

/-- Spec-side domain value at one point, following the words of the claim:
`i+1` where `i` is the index of the first indicator in original list order
whose membership test is true at the point translated relative to the
center, and 0 if no indicator is true. -/
def firstTrueDomain (indicators : List Indicator) (center : Point)
    (p : Point) : ℕ :=
  match indicators.findIdx? (fun test => test (psub p center)) with
  | some i => i + 1
  | none => 0

/-- Model of `Scatterer.index_at`: compute the domain of every point, start from an
array filled with `background`, then for each domain index `i` with
refractive index `nv` overwrite the entries where `domains == i+1`.
The numpy dtype selection (complex vs float) is not modelled; the element
type is the type parameter `α`. -/
def index_at {α : Type} (indicators : List Indicator) (center : Point)
    (n : List α) (background : α) (points : List Point) : List α :=
  let domains := in_domain indicators center points
  n.enum.foldl
    (fun index (i, nv) =>
      List.zipWith (fun v d => if d = i + 1 then nv else v) index domains)
    (domains.map (fun _ => background))

/-! ## Scatterer.translated (scatterer.py lines 63-87) -/

/-- Modelled from the spec: `holopy.core.utils.is_none` is not under src/;
it tests whether an optional argument was supplied. -/
def is_none {α : Type} (x : Option α) : Bool :=
  x.isNone

/-- A python argument that may be a scalar or a 1-D array/list. -/
inductive Coord where
  | scalar : ℚ → Coord
  | vec : List ℚ → Coord
  deriving DecidableEq

/-- Modelled from the spec: `holopy.core.utils.ensure_array` is not under
src/; it wraps a scalar into a 1-element array and leaves arrays
unchanged. -/
def ensure_array : Coord → List ℚ
  | .scalar x => [x]
  | .vec v => v

/-- numpy elementwise addition with broadcasting for 1-D arrays: equal
lengths add elementwise, a length-1 operand broadcasts over the other,
anything else raises a `ValueError`. -/
def broadcastAdd (a b : List ℚ) : Except Err (List ℚ) :=
  if a.length = b.length then .ok (List.zipWith (· + ·) a b)
  else if b.length = 1 then .ok (a.map (· + b.headI))
  else if a.length = 1 then .ok (b.map (fun x => a.headI + x))
  else .error .valueError

/-- Model of `Scatterer.translated`, giving the new center it produces.  The
first branch's python condition is `is_none(coord2) and
len(ensure_array(coord1)==3)`: the comparison with 3 is elementwise inside
`len`, so the test is only that `ensure_array(coord1)` is nonempty, and the
branch is entered for scalars and vectors of any nonzero length; the sum
`self.center + trans_coords` then broadcasts or raises `ValueError`.  The
second branch (`coord2` and `coord3` both given) builds
`np.array([coord1, coord2, coord3])`; a vector `coord1` there would make a
ragged array, modelled as `ValueError`.  Otherwise the code raises
`InvalidScatterer`. -/
def translated (center : List ℚ) (coord1 : Coord)
    (coord2 coord3 : Option ℚ) : Except Err (List ℚ) :=
  if is_none coord2 && decide ((ensure_array coord1).length ≠ 0) then
    broadcastAdd center (ensure_array coord1)
  else if !is_none coord2 && !is_none coord3 then
    match coord1, coord2, coord3 with
    | .scalar x, some y, some z => broadcastAdd center [x, y, z]
    | _, _, _ => .error .valueError
  else .error .invalidScatterer

/-! ## parameters / from_parameters (scatterer.py lines 203-304)

Python dict keys are modelled as `List Char`, python dicts as association
lists with python-dict insert semantics (replace in place, else append).
A scatterer is represented by its parameter dict (`self._dict`, the
constructor arguments recorded by `HoloPyObject`, which is not under src/
and is modelled from the spec: "for simple classes the variable self._dict
is the correct answer").  `xarray.DataArray` values and `prior.ComplexPrior`
values (objects with both `name` and `imag` attributes) are outside the
value model; a plain python complex has no `name` attribute, so
`_expand_parameters` keeps it whole as a leaf. -/

/-- A python dict key. -/
abbrev Key := List Char

/-- A leaf value of the flattened parameter dict: a number or a python
complex (kept whole by `_expand_parameters`). -/
inductive Leaf where
  | num : ℚ → Leaf
  | cnum : ℚ → ℚ → Leaf
  deriving DecidableEq

/-- A structured parameter value: number, python complex, list/tuple/
ndarray, or nested dict. -/
inductive PVal where
  | num : ℚ → PVal
  | cnum : ℚ → ℚ → PVal
  | vals : List PVal → PVal
  | dict : List (Key × PVal) → PVal

/-- python dict insert: replace the value in place when the key exists,
else append. -/
def pyInsert {α : Type} : List (Key × α) → Key → α → List (Key × α)
  | [], k, v => [(k, v)]
  | (k', v') :: rest, k, v =>
    if k' = k then (k, v) :: rest else (k', v') :: pyInsert rest k v

/-- python dict lookup. -/
def plookup {α : Type} (k : Key) : List (Key × α) → Option α
  | [] => none
  | (k', v) :: rest => if k' = k then some v else plookup k rest

/-- Build a python dict from a key/value sequence (`dict(...)`): duplicate
keys collapse onto the first position, last value wins. -/
def pyDictOf {α : Type} (l : List (Key × α)) : List (Key × α) :=
  l.foldl (fun acc kv => pyInsert acc kv.1 kv.2) []

/-- Keep the first occurrence of every key.  Models iterating a python
`set` of subkeys; the set's iteration order is unspecified in python, so
results built from it are compared by lookup, not by entry order. -/
def dedupKeys : List Key → List Key
  | [] => []
  | k :: rest => k :: (dedupKeys rest).filter (fun k' => k' ≠ k)

/-- Model of `str(i)` for a nonnegative integer: decimal digits. -/
def natChars (n : ℕ) : Key :=
  if n = 0 then ['0'] else ((Nat.digits 10 n).map Nat.digitChar).reverse

/-- View a leaf of the flat dict as a python value. -/
def leafVal : Leaf → PVal
  | .num v => .num v
  | .cnum re im => .cnum re im

/-- The leaf a leaf-valued `PVal` flattens to (junk on non-leaves, which the
well-formedness predicate excludes). -/
def leafOf : PVal → Leaf
  | .num v => .num v
  | .cnum re im => .cnum re im
  | _ => .num 0

/-- Model of `key.split('.',1)[0].split('_',1)[0]`: cut at the first '.', then cut
the result at the first '_'. -/
def subkeyOf (k : Key) : Key :=
  (k.takeWhile (fun c => c ≠ '.')).takeWhile (fun c => c ≠ '_')

mutual

/-- Model of `_expand_parameters(pairs, basekey)` (scatterer.py lines 282-304):
lists recurse with `key + '.' + str(i)`, dicts with `key + '_' + subkey`,
leaves emit `(key, par)`. -/
def expandPVal (key : Key) : PVal → List (Key × Leaf)
  | .num v => [(key, .num v)]
  | .cnum re im => [(key, .cnum re im)]
  | .vals ps => expandEnum key 0 ps
  | .dict ps => expandDict key ps

def expandEnum (key : Key) (i : ℕ) : List PVal → List (Key × Leaf)
  | [] => []
  | p :: ps =>
    expandPVal (key ++ '.' :: natChars i) p ++ expandEnum key (i + 1) ps

def expandDict (key : Key) : List (Key × PVal) → List (Key × Leaf)
  | [] => []
  | (k, p) :: ps => expandPVal (key ++ '_' :: k) p ++ expandDict key ps

end

/-- The top-level `_expand_parameters(self._dict.items())` with empty
basekey: each entry's key is its own name. -/
def expandTop : List (Key × PVal) → List (Key × Leaf)
  | [] => []
  | (k, p) :: ps => expandPVal k p ++ expandTop ps

/-- The `parameters` property:
`dict(_expand_parameters(self._dict.items()))`. -/
def parameters (d : List (Key × PVal)) : List (Key × Leaf) :=
  pyDictOf (expandTop d)

/-- The matching loop inside `extract_pars`: over all raw keys starting
with `subkey`, record `delimchar = key[clip]` (the last match wins, as in
the python loop) and build `subset[key[clip+1:]] = val` with dict-insert
semantics.  A matching key of length exactly `clip` cannot occur here (such
a key equals `subkey` and is taken by the direct branch, python would raise
`IndexError`); that unreachable case leaves the accumulator unchanged. -/
def collectStep (subkey : Key) (acc : Option Char × List (Key × Leaf))
    (kv : Key × Leaf) : Option Char × List (Key × Leaf) :=
  if subkey.isPrefixOf kv.1 then
    match kv.1[subkey.length]? with
    | some c => (some c, pyInsert acc.2 (kv.1.drop (subkey.length + 1)) kv.2)
    | none => acc
  else acc

def collectSubset (subkey : Key) (raw : List (Key × Leaf)) :
    Option Char × List (Key × Leaf) :=
  raw.foldl (collectStep subkey) (none, [])

/-- Model of `[dictform[str(i)] for i in range(len(dictform))]`; a missing index is
a python `KeyError`. -/
def listFromDict (d : List (Key × PVal)) : List ℕ → Except Err (List PVal)
  | [] => .ok []
  | i :: is =>
    match plookup (natChars i) d with
    | some v => (listFromDict d is).map (fun vs => v :: vs)
    | none => .error .keyError

/-- Model of `1.0 * dictform['real'] + 1.0j * dictform['imag']`: rebuild a python
complex; non-numeric parts make the arithmetic a `TypeError`. -/
def complexFromDict (d : List (Key × PVal)) : Except Err PVal :=
  match plookup ['r', 'e', 'a', 'l'] d, plookup ['i', 'm', 'a', 'g'] d with
  | some (.num re), some (.num im) => .ok (.cnum re im)
  | some _, some _ => .error .typeError
  | _, _ => .error .keyError

mutual

/-- Model of `extract_pars` (scatterer.py lines 241-273), with fuel for the
recursion into subsets (`outOfFuel` is a model artifact, unreachable with
fuel above the key-nesting depth): compute the deduplicated subkeys and run
the loop over them. -/
def extract_pars : ℕ → List (Key × Leaf) → Except Err (List (Key × PVal))
  | 0, _ => .error .outOfFuel
  | fuel + 1, raw =>
    extractLoop fuel raw (dedupKeys (raw.map (fun kv => subkeyOf kv.1)))

/-- The chained iterations of the `for subkey in subkeys` loop of
`extract_pars`. -/
def extractLoop (fuel : ℕ) (raw : List (Key × Leaf)) :
    List Key → Except Err (List (Key × PVal))
  | [] => .ok []
  | subkey :: rest =>
    match processSubkey fuel raw subkey with
    | .ok item =>
      match extractLoop fuel raw rest with
      | .ok out => .ok (item :: out)
      | .error e => .error e
    | .error e => .error e

/-- One iteration of the `extract_pars` loop: the entry it assigns to
`out_dict[subkey]`, or `InvalidScatterer` when no branch assigns one (the
`if subkey not in out_dict` check at the end of the iteration). -/
def processSubkey (fuel : ℕ) (raw : List (Key × Leaf)) (subkey : Key) :
    Except Err (Key × PVal) :=
  match plookup subkey raw with
  | some leaf =>
    -- direct branch; leaves have no `guess` attribute
    .ok (subkey, leafVal leaf)
  | none =>
    let res := collectSubset subkey raw
    if res.1 = some '_' then
      match extract_pars fuel res.2 with
      | .ok sub => .ok (subkey, .dict sub)
      | .error e => .error e
    else if res.1 = some '.' then
      match extract_pars fuel res.2 with
      | .ok dictform =>
        if (plookup ['0'] dictform).isSome then
          match listFromDict dictform (List.range dictform.length) with
          | .ok vs => .ok (subkey, .vals vs)
          | .error e => .error e
        else if (plookup ['r', 'e', 'a', 'l'] dictform).isSome then
          match complexFromDict dictform with
          | .ok c => .ok (subkey, c)
          | .error e => .error e
        else .error .invalidScatterer
      | .error e => .error e
    else if res.1 = none then
      -- no key starts with subkey: python reads the never-assigned local
      -- `delimchar` (NameError); unreachable since subkey comes from a key
      .error .nameError
    else .error .invalidScatterer

end

/-- The merge at the top of `from_parameters`: start from
`copy(self.parameters)` and overwrite every key present in the given
parameters. -/
def mergePars (allPars newPars : List (Key × Leaf)) : List (Key × Leaf) :=
  allPars.map (fun kv =>
    match plookup kv.1 newPars with
    | some v => (kv.1, v)
    | none => kv)

/-- Model of `CenteredScatterer.from_parameters`: merge the given flat dict over
`self.parameters`, then `extract_pars`.  The final
`type(self)(extract_pars(all_pars))` rebuilds the scatterer from the
structured dict; the scatterer is represented by that dict. -/
def from_parameters (fuel : ℕ) (d : List (Key × PVal))
    (pars : List (Key × Leaf)) : Except Err (List (Key × PVal)) :=
  extract_pars fuel (mergePars (parameters d) pars)

/-- A leaf-valued python object (number or complex). -/
def leafOnly : PVal → Bool
  | .num _ => true
  | .cnum _ _ => true
  | _ => false

/-- A usable parameter name: nonempty and free of the delimiter characters
'.' and '_'. -/
def goodKey (k : Key) : Prop :=
  k ≠ [] ∧ ∀ c ∈ k, c ≠ '.' ∧ c ≠ '_'

/-- Scope of the round-trip claim: a scalar, a python complex, or a
nonempty flat list of such leaves. -/
def goodVal : PVal → Prop
  | .num _ => True
  | .cnum _ _ => True
  | .vals ps => ps ≠ [] ∧ ∀ p ∈ ps, leafOnly p = true
  | .dict _ => False

instance (v : PVal) : Decidable (goodVal v) :=
  match v with
  | .num _ => isTrue trivial
  | .cnum _ _ => isTrue trivial
  | .vals ps =>
    let he : Decidable (ps = []) :=
      match ps with
      | [] => isTrue rfl
      | _ :: _ => isFalse (by simp)
    @instDecidableAnd _ _ (@instDecidableNot _ he) inferInstance
  | .dict _ => isFalse (fun h => h)

instance (k : Key) : Decidable (goodKey k) :=
  inferInstanceAs (Decidable (k ≠ [] ∧ ∀ c ∈ k, c ≠ '.' ∧ c ≠ '_'))

/-- Well-formed scatterer parameter dict: good names and values, and no
name a prefix of another (nor repeated). -/
def WFDict (d : List (Key × PVal)) : Prop :=
  (∀ kv ∈ d, goodKey kv.1 ∧ goodVal kv.2) ∧
  d.Pairwise (fun a b =>
    a.1.isPrefixOf b.1 = false ∧ b.1.isPrefixOf a.1 = false)

instance (d : List (Key × PVal)) : Decidable (WFDict d) :=
  inferInstanceAs (Decidable
    ((∀ kv ∈ d, goodKey kv.1 ∧ goodVal kv.2) ∧
     d.Pairwise (fun a b : Key × PVal =>
       List.isPrefixOf a.1 b.1 = false ∧ List.isPrefixOf b.1 a.1 = false)))

/-! ## find_bounds (scatterer.py lines 307-339) -/

/-- A `while indicator(point): point[i] *= factor` loop, with fuel; `none`
models a loop that does not terminate within the fuel.  `find_bounds` runs
it with factor 10 (`point[i] *= 10`) and factor 11/10 (`point[i] *= 1.1`). -/
def growWhile (ind : ℚ → Bool) (factor : ℚ) : ℕ → ℚ → Option ℚ
  | 0, x => if ind x then none else some x
  | fuel + 1, x => if ind x then growWhile ind factor fuel (x * factor)
                   else some x

/-- The contraction loop of `find_bounds`: `iter = 0; while not
indicator(point) and iter < 10: point[i] /= 2; iter += 1`; it is run with
fuel 10. -/
def shrinkWhile (ind : ℚ → Bool) : ℕ → ℚ → ℚ
  | 0, x => x
  | fuel + 1, x => if ind x then x else shrinkWhile ind fuel (x / 2)

/-- One axis/direction slot of `find_bounds`: sequential logarithmic search
outward (`*= 10`) while the indicator is true, contraction (`/= 2`, at most
10 iterations) while it is false, then re-expansion (`*= 1.1`) while it is
true again. -/
def boundSearch (ind : ℚ → Bool) (fuel : ℕ) (seed : ℚ) : Option ℚ :=
  (growWhile ind 10 fuel seed).bind (fun a =>
    growWhile ind (11 / 10) fuel (shrinkWhile ind 10 a))

/-- Model of `find_bounds`: for each of the 3 axes and 2 directions, run the search
from the seed `±1e-9` on that axis with the other axes at 0 (the python
`point = np.zeros(3); point[i] = bounds[i][j]`), and collect the per-axis
bounds; `j = 0` is the negative direction. -/
def find_bounds (indicator : Point → Bool) (fuel : ℕ) :
    Option (List (List ℚ)) := do
  let seed : ℚ := 1 / 1000000000
  let x0 ← boundSearch (fun v => indicator (v, 0, 0)) fuel (-seed)
  let x1 ← boundSearch (fun v => indicator (v, 0, 0)) fuel seed
  let y0 ← boundSearch (fun v => indicator (0, v, 0)) fuel (-seed)
  let y1 ← boundSearch (fun v => indicator (0, v, 0)) fuel seed
  let z0 ← boundSearch (fun v => indicator (0, 0, v)) fuel (-seed)
  let z1 ← boundSearch (fun v => indicator (0, 0, v)) fuel seed
  pure [[x0, x1], [y0, y1], [z0, z1]]

/-- One slot of the search as the claim words it, with the growth factor of
the first loop as a parameter: the claim says the offset is doubled while
the indicator is true (factor 2), then halved up to 10 iterations, then
re-expanded in 10% steps. -/
def boundSearchClaim (factor : ℚ) (ind : ℚ → Bool) (fuel : ℕ)
    (seed : ℚ) : Option ℚ :=
  (growWhile ind factor fuel seed).bind (fun a =>
    growWhile ind (11 / 10) fuel (shrinkWhile ind 10 a))

/-- The whole search as the claim words it: seed of magnitude 1e-9 per axis
and direction, growth by `factor` while the indicator is true, contraction
by halving up to 10 iterations, re-expansion in 10% steps. -/
def findBoundsClaim (factor : ℚ) (indicator : Point → Bool) (fuel : ℕ) :
    Option (List (List ℚ)) := do
  let seed : ℚ := 1 / 1000000000
  let x0 ← boundSearchClaim factor (fun v => indicator (v, 0, 0)) fuel (-seed)
  let x1 ← boundSearchClaim factor (fun v => indicator (v, 0, 0)) fuel seed
  let y0 ← boundSearchClaim factor (fun v => indicator (0, v, 0)) fuel (-seed)
  let y1 ← boundSearchClaim factor (fun v => indicator (0, v, 0)) fuel seed
  let z0 ← boundSearchClaim factor (fun v => indicator (0, 0, v)) fuel (-seed)
  let z1 ← boundSearchClaim factor (fun v => indicator (0, 0, v)) fuel seed
  pure [[x0, x1], [y0, y1], [z0, z1]]

/-- A box indicator `|coord| ≤ 4e-9` on every axis, used to separate the
growth factors 2 and 10. -/
def boxIndicator (p : Point) : Bool :=
  (decide (-(1 / 250000000) ≤ p.1) && decide (p.1 ≤ 1 / 250000000)) &&
  (decide (-(1 / 250000000) ≤ p.2.1) && decide (p.2.1 ≤ 1 / 250000000)) &&
  (decide (-(1 / 250000000) ≤ p.2.2) && decide (p.2.2 ≤ 1 / 250000000))

/-! ## Theorems -/

theorem isPrefixOf_append_right (k r : Key) : k.isPrefixOf (k ++ r) = true := by
  induction k with
  | nil => simp [List.isPrefixOf]
  | cons a as ih => simp [List.isPrefixOf, ih]

theorem isPrefixOf_self (k : Key) : k.isPrefixOf k = true := by
  have := isPrefixOf_append_right k []
  simpa using this

theorem length_le_of_isPrefixOf :
    ∀ {k l : Key}, k.isPrefixOf l = true → k.length ≤ l.length
  | [], _, _ => by simp
  | a :: as, [], h => by simp [List.isPrefixOf] at h
  | a :: as, b :: bs, h => by
    simp only [List.isPrefixOf, Bool.and_eq_true] at h
    simpa using length_le_of_isPrefixOf h.2

theorem eq_of_isPrefixOf_length :
    ∀ {k l : Key}, k.isPrefixOf l = true → l.length ≤ k.length → k = l
  | [], [], _, _ => rfl
  | [], b :: bs, _, hlen => by simp at hlen
  | a :: as, [], h, _ => by simp [List.isPrefixOf] at h
  | a :: as, b :: bs, h, hlen => by
    simp only [List.isPrefixOf, Bool.and_eq_true, beq_iff_eq] at h
    simp only [List.length_cons, Nat.add_le_add_iff_right] at hlen
    rw [h.1, eq_of_isPrefixOf_length h.2 hlen]

theorem isPrefixOf_comparable :
    ∀ {a b t : Key}, a.isPrefixOf t = true → b.isPrefixOf t = true →
      a.isPrefixOf b = true ∨ b.isPrefixOf a = true
  | [], _, _, _, _ => Or.inl (by simp [List.isPrefixOf])
  | _ :: _, [], _, _, _ => Or.inr (by simp [List.isPrefixOf])
  | x :: xs, y :: ys, [], ha, _ => by simp [List.isPrefixOf] at ha
  | x :: xs, y :: ys, t :: ts, ha, hb => by
    simp only [List.isPrefixOf, Bool.and_eq_true, beq_iff_eq] at ha hb
    rcases isPrefixOf_comparable ha.2 hb.2 with h | h <;>
      simp [List.isPrefixOf, ha.1, hb.1, h]

theorem isPrefixOf_trans_append :
    ∀ (k : Key) (c : Char) (r : Key), k ≠ k ++ c :: r := by
  intro k c r h
  have := congrArg List.length h
  simp at this

theorem takeWhile_append_of_all (p : Char → Bool) :
    ∀ (k : Key) (c : Char) (r : Key), (∀ x ∈ k, p x = true) →
      p c = false → (k ++ c :: r).takeWhile p = k
  | [], c, r, _, hc => by simp [List.takeWhile_cons, hc]
  | a :: as, c, r, hk, hc => by
    have ha : p a = true := hk a (List.mem_cons_self a as)
    rw [List.cons_append, List.takeWhile_cons, if_pos ha,
      takeWhile_append_of_all p as c r
        (fun x hx => hk x (List.mem_cons_of_mem a hx)) hc]

theorem takeWhile_of_all (p : Char → Bool) :
    ∀ (k : Key), (∀ x ∈ k, p x = true) → k.takeWhile p = k
  | [], _ => rfl
  | a :: as, hk => by
    have ha : p a = true := hk a (List.mem_cons_self a as)
    rw [List.takeWhile_cons, if_pos ha,
      takeWhile_of_all p as (fun x hx => hk x (List.mem_cons_of_mem a hx))]

theorem subkeyOf_of_good (k : Key) (h : ∀ c ∈ k, c ≠ '.' ∧ c ≠ '_') :
    subkeyOf k = k := by
  rw [subkeyOf, takeWhile_of_all _ k (by simpa using fun c hc => (h c hc).1),
    takeWhile_of_all _ k (by simpa using fun c hc => (h c hc).2)]

theorem subkeyOf_append_dot (k : Key) (r : Key)
    (h : ∀ c ∈ k, c ≠ '.' ∧ c ≠ '_') :
    subkeyOf (k ++ '.' :: r) = k := by
  rw [subkeyOf,
    takeWhile_append_of_all _ k '.' r
      (by simpa using fun c hc => (h c hc).1) (by simp),
    takeWhile_of_all _ k (by simpa using fun c hc => (h c hc).2)]

theorem digitChar_not_delim :
    ∀ d : ℕ, d < 10 → Nat.digitChar d ≠ '.' ∧ Nat.digitChar d ≠ '_' := by
  decide

theorem digitChar_inj_lt :
    ∀ d₁ : ℕ, d₁ < 10 → ∀ d₂ : ℕ, d₂ < 10 →
      Nat.digitChar d₁ = Nat.digitChar d₂ → d₁ = d₂ := by
  decide

theorem digitChar_eq_zero_char :
    ∀ d : ℕ, d < 10 → Nat.digitChar d = '0' → d = 0 := by
  decide

theorem natChars_not_delim (n : ℕ) :
    ∀ c ∈ natChars n, c ≠ '.' ∧ c ≠ '_' := by
  intro c hc
  rw [natChars] at hc
  by_cases h0 : n = 0
  · simp [h0] at hc
    simp [hc]
  · simp only [h0, if_false, List.mem_reverse, List.mem_map] at hc
    obtain ⟨d, hd, rfl⟩ := hc
    exact digitChar_not_delim d (Nat.digits_lt_base (by norm_num) hd)

theorem natChars_ne_nil (n : ℕ) : natChars n ≠ [] := by
  rw [natChars]
  by_cases h0 : n = 0
  · simp [h0]
  · simp only [h0, if_false, ne_eq, List.reverse_eq_nil_iff, List.map_eq_nil_iff]
    exact Nat.digits_ne_nil_iff_ne_zero.mpr h0

theorem map_digitChar_inj :
    ∀ (l₁ l₂ : List ℕ), (∀ x ∈ l₁, x < 10) → (∀ x ∈ l₂, x < 10) →
      l₁.map Nat.digitChar = l₂.map Nat.digitChar → l₁ = l₂
  | [], [], _, _, _ => rfl
  | [], _ :: _, _, _, h => by simp at h
  | _ :: _, [], _, _, h => by simp at h
  | a :: as, b :: bs, h₁, h₂, h => by
    simp only [List.map_cons, List.cons.injEq] at h
    rw [digitChar_inj_lt a (h₁ a (List.mem_cons_self a as)) b
        (h₂ b (List.mem_cons_self b bs)) h.1,
      map_digitChar_inj as bs
        (fun x hx => h₁ x (List.mem_cons_of_mem a hx))
        (fun x hx => h₂ x (List.mem_cons_of_mem b hx)) h.2]

theorem natChars_injective : ∀ {m n : ℕ}, natChars m = natChars n → m = n := by
  have key : ∀ m : ℕ, m ≠ 0 → natChars m ≠ ['0'] := by
    intro m hm h
    rw [natChars, if_neg hm] at h
    have h' : (Nat.digits 10 m).map Nat.digitChar = ['0'] := by
      have := congrArg List.reverse h
      simpa using this
    rcases hd : Nat.digits 10 m with _ | ⟨d, ds⟩
    · rw [hd] at h'; simp at h'
    · rw [hd] at h'
      simp only [List.map_cons, List.cons.injEq, List.map_eq_nil_iff] at h'
      have hd10 : d < 10 :=
        Nat.digits_lt_base (by norm_num) (hd ▸ List.mem_cons_self d ds)
      have hd0 : d = 0 := digitChar_eq_zero_char d hd10 h'.1
      have hdig : Nat.digits 10 m = [0] := by rw [hd, h'.2, hd0]
      have hofd := Nat.ofDigits_digits 10 m
      rw [hdig] at hofd
      simp [Nat.ofDigits_cons, Nat.ofDigits_nil] at hofd
      exact hm hofd.symm
  intro m n h
  by_cases hm : m = 0 <;> by_cases hn : n = 0
  · omega
  · exfalso
    exact key n hn (by rw [← h, hm]; rfl)
  · exfalso
    exact key m hm (by rw [h, hn]; rfl)
  · rw [natChars, natChars, if_neg hm, if_neg hn] at h
    have h' := congrArg List.reverse h
    simp only [List.reverse_reverse] at h'
    have hdig := map_digitChar_inj _ _
      (fun x hx => Nat.digits_lt_base (by norm_num) hx)
      (fun x hx => Nat.digits_lt_base (by norm_num) hx) h'
    have := congrArg (Nat.ofDigits 10) hdig
    rwa [Nat.ofDigits_digits, Nat.ofDigits_digits] at this

theorem subkeyOf_natChars (n : ℕ) : subkeyOf (natChars n) = natChars n :=
  subkeyOf_of_good _ (natChars_not_delim n)

theorem plookup_eq_none {α : Type} (k : Key) :
    ∀ l : List (Key × α), (∀ kv ∈ l, kv.1 ≠ k) → plookup k l = none
  | [], _ => rfl
  | (k', v) :: rest, h => by
    rw [plookup, if_neg (h (k', v) (List.mem_cons_self _ _)),
      plookup_eq_none k rest (fun kv hkv => h kv (List.mem_cons_of_mem _ hkv))]

theorem plookup_append_none {α : Type} (k : Key) :
    ∀ (l₁ l₂ : List (Key × α)), plookup k l₁ = none →
      plookup k (l₁ ++ l₂) = plookup k l₂
  | [], l₂, _ => rfl
  | (k', v) :: rest, l₂, h => by
    rw [plookup] at h
    by_cases hk : k' = k
    · rw [if_pos hk] at h; cases h
    · rw [if_neg hk] at h
      rw [List.cons_append, plookup, if_neg hk,
        plookup_append_none k rest l₂ h]

theorem plookup_append_some {α : Type} (k : Key) (v : α) :
    ∀ (l₁ l₂ : List (Key × α)), plookup k l₁ = some v →
      plookup k (l₁ ++ l₂) = some v
  | [], l₂, h => by cases h
  | (k', v') :: rest, l₂, h => by
    rw [plookup] at h
    by_cases hk : k' = k
    · rw [if_pos hk] at h
      rw [List.cons_append, plookup, if_pos hk, h]
    · rw [if_neg hk] at h
      rw [List.cons_append, plookup, if_neg hk,
        plookup_append_some k v rest l₂ h]

theorem plookup_of_nodup_mem {α : Type} (k : Key) (v : α) :
    ∀ l : List (Key × α), (l.map Prod.fst).Nodup → (k, v) ∈ l →
      plookup k l = some v
  | [], _, hmem => by cases hmem
  | (k', v') :: rest, hnd, hmem => by
    rcases List.mem_cons.mp hmem with heq | hmem'
    · cases heq
      rw [plookup, if_pos rfl]
    · have hk : k' ≠ k := by
        intro h
        subst h
        have : k' ∈ rest.map Prod.fst :=
          List.mem_map.mpr ⟨(k', v), hmem', rfl⟩
        simp only [List.map_cons, List.nodup_cons] at hnd
        exact hnd.1 this
      rw [plookup, if_neg hk,
        plookup_of_nodup_mem k v rest
          (by simp only [List.map_cons, List.nodup_cons] at hnd
              exact hnd.2) hmem']

theorem pyInsert_append {α : Type} (k : Key) (v : α) :
    ∀ l : List (Key × α), (∀ kv ∈ l, kv.1 ≠ k) → pyInsert l k v = l ++ [(k, v)]
  | [], _ => rfl
  | (k', v') :: rest, h => by
    rw [pyInsert, if_neg (h (k', v') (List.mem_cons_self _ _)),
      pyInsert_append k v rest (fun kv hkv => h kv (List.mem_cons_of_mem _ hkv)),
      List.cons_append]

theorem pyDictOf_go {α : Type} :
    ∀ (l acc : List (Key × α)), (l.map Prod.fst).Nodup →
      (∀ kv ∈ l, ∀ kv' ∈ acc, kv'.1 ≠ kv.1) →
      l.foldl (fun acc kv => pyInsert acc kv.1 kv.2) acc = acc ++ l
  | [], acc, _, _ => by simp
  | (k, v) :: rest, acc, hnd, hdisj => by
    rw [List.foldl_cons,
      pyInsert_append k v acc
        (fun kv' hkv' => hdisj (k, v) (List.mem_cons_self _ _) kv' hkv'),
      pyDictOf_go rest (acc ++ [(k, v)])
        (by simp only [List.map_cons, List.nodup_cons] at hnd; exact hnd.2)
        (by
          intro kv hkv kv' hkv'
          rcases List.mem_append.mp hkv' with h | h
          · exact hdisj kv (List.mem_cons_of_mem _ hkv) kv' h
          · simp only [List.mem_singleton] at h
            subst h
            simp only [List.map_cons, List.nodup_cons] at hnd
            intro hcontra
            exact hnd.1
              (by rw [show k = kv.1 from hcontra]
                  exact List.mem_map.mpr ⟨kv, hkv, rfl⟩)),
      List.append_assoc, List.singleton_append]

theorem pyDictOf_eq_self {α : Type} (l : List (Key × α))
    (h : (l.map Prod.fst).Nodup) : pyDictOf l = l := by
  rw [pyDictOf, pyDictOf_go l [] h (by simp), List.nil_append]

theorem mergePars_self (l : List (Key × Leaf))
    (h : (l.map Prod.fst).Nodup) : mergePars l l = l := by
  rw [mergePars]
  conv_rhs => rw [← List.map_id l]
  refine List.map_congr_left (fun kv hkv => ?_)
  rw [plookup_of_nodup_mem kv.1 kv.2 l h hkv]
  simp

theorem dedupKeys_of_nodup : ∀ l : List Key, l.Nodup → dedupKeys l = l
  | [], _ => rfl
  | k :: rest, hnd => by
    simp only [List.nodup_cons] at hnd
    rw [dedupKeys, dedupKeys_of_nodup rest hnd.2, List.cons.injEq]
    refine ⟨rfl, List.filter_eq_self.mpr (fun x hx => ?_)⟩
    simp only [ne_eq, decide_eq_true_eq]
    intro hcontra
    exact hnd.1 (hcontra ▸ hx)

theorem dedupKeys_append_of_all_eq (k : Key) :
    ∀ (g rest : List Key), g ≠ [] → (∀ x ∈ g, x = k) →
      dedupKeys (g ++ rest)
        = k :: (dedupKeys rest).filter (fun k' => k' ≠ k)
  | [], _, hne, _ => absurd rfl hne
  | [x], rest, _, hall => by
    rw [hall x (List.mem_singleton_self x), List.singleton_append, dedupKeys]
  | x :: y :: g, rest, _, hall => by
    rw [List.cons_append, dedupKeys,
      dedupKeys_append_of_all_eq k (y :: g) rest (by simp)
        (fun z hz => hall z (List.mem_cons_of_mem _ hz)),
      hall x (List.mem_cons_self _ _), List.cons.injEq]
    refine ⟨rfl, ?_⟩
    simp [List.filter_cons, List.filter_filter, Bool.and_self]

theorem expandEnum_of_leaves (key : Key) :
    ∀ (ws : List PVal) (i : ℕ), (∀ w ∈ ws, leafOnly w = true) →
      expandEnum key i ws
        = (List.enumFrom i ws).map
            (fun jw => (key ++ '.' :: natChars jw.1, leafOf jw.2))
  | [], _, _ => rfl
  | w :: ws, i, h => by
    have hw : leafOnly w = true := h w (List.mem_cons_self _ _)
    have hexp : expandPVal (key ++ '.' :: natChars i) w
        = [(key ++ '.' :: natChars i, leafOf w)] := by
      cases w
      · rfl
      · rfl
      · simp [leafOnly] at hw
      · simp [leafOnly] at hw
    rw [expandEnum, hexp,
      expandEnum_of_leaves key ws (i + 1)
        (fun x hx => h x (List.mem_cons_of_mem _ hx))]
    rfl

theorem leafVal_leafOf (w : PVal) (hw : leafOnly w = true) :
    leafVal (leafOf w) = w := by
  cases w
  · rfl
  · rfl
  · simp [leafOnly] at hw
  · simp [leafOnly] at hw

theorem expandPVal_key_isPrefixOf (k : Key) (v : PVal) (hv : goodVal v) :
    ∀ kv ∈ expandPVal k v, k.isPrefixOf kv.1 = true := by
  cases v with
  | num x =>
    intro kv hkv
    simp only [expandPVal, List.mem_singleton] at hkv
    rw [hkv]
    exact isPrefixOf_self k
  | cnum re im =>
    intro kv hkv
    simp only [expandPVal, List.mem_singleton] at hkv
    rw [hkv]
    exact isPrefixOf_self k
  | vals ps =>
    intro kv hkv
    rw [expandPVal, expandEnum_of_leaves k ps 0 hv.2] at hkv
    obtain ⟨jw, _, rfl⟩ := List.mem_map.mp hkv
    exact isPrefixOf_append_right k _
  | dict ps => exact absurd hv (by simp [goodVal])

theorem expandTop_append :
    ∀ d₁ d₂ : List (Key × PVal),
      expandTop (d₁ ++ d₂) = expandTop d₁ ++ expandTop d₂
  | [], _ => rfl
  | (k, v) :: d₁, d₂ => by
    rw [List.cons_append, expandTop, expandTop, expandTop_append d₁ d₂,
      List.append_assoc]

theorem expandTop_key_shape (d : List (Key × PVal))
    (hv : ∀ kv ∈ d, goodVal kv.2) :
    ∀ kv ∈ expandTop d, ∃ kv₀ ∈ d, kv₀.1.isPrefixOf kv.1 = true := by
  induction d with
  | nil => intro kv hkv; cases hkv
  | cons hd tl ih =>
    intro kv hkv
    obtain ⟨k, v⟩ := hd
    rw [expandTop] at hkv
    rcases List.mem_append.mp hkv with h | h
    · exact ⟨(k, v), List.mem_cons_self _ _,
        expandPVal_key_isPrefixOf k v (hv (k, v) (List.mem_cons_self _ _)) kv h⟩
    · obtain ⟨kv₀, hkv₀, hpre⟩ :=
        ih (fun x hx => hv x (List.mem_cons_of_mem _ hx)) kv h
      exact ⟨kv₀, List.mem_cons_of_mem _ hkv₀, hpre⟩

theorem plookup_expandTop_none (k' : Key) (d : List (Key × PVal))
    (hv : ∀ kv ∈ d, goodVal kv.2)
    (h : ∀ kv ∈ d, kv.1.isPrefixOf k' = false) :
    plookup k' (expandTop d) = none := by
  refine plookup_eq_none k' _ (fun kv hkv heq => ?_)
  obtain ⟨kv₀, hkv₀, hpre⟩ := expandTop_key_shape d hv kv hkv
  rw [heq] at hpre
  rw [h kv₀ hkv₀] at hpre
  cases hpre

theorem expandPVal_keys_nodup (k : Key) (v : PVal) (hv : goodVal v) :
    ((expandPVal k v).map Prod.fst).Nodup := by
  cases v with
  | num x => simp [expandPVal]
  | cnum re im => simp [expandPVal]
  | vals ps =>
    rw [expandPVal, expandEnum_of_leaves k ps 0 hv.2, List.map_map]
    have heq : (Prod.fst ∘ fun jw : ℕ × PVal =>
        (k ++ '.' :: natChars jw.1, leafOf jw.2))
        = (fun j : ℕ => k ++ '.' :: natChars j) ∘ Prod.fst := rfl
    rw [heq, ← List.map_map, List.enumFrom_map_fst]
    refine List.Nodup.map ?_ (List.nodup_range' _ _)
    intro a b hab
    have := List.append_cancel_left hab
    simp only [List.cons.injEq, true_and] at this
    exact natChars_injective this
  | dict ps => exact absurd hv (by simp [goodVal])

theorem expandTop_keys_nodup (d : List (Key × PVal)) (hwf : WFDict d) :
    ((expandTop d).map Prod.fst).Nodup := by
  obtain ⟨hkv, hpw⟩ := hwf
  induction d with
  | nil => simp [expandTop]
  | cons hd tl ih =>
    obtain ⟨k, v⟩ := hd
    rw [expandTop, List.map_append, List.nodup_append]
    rw [List.pairwise_cons] at hpw
    refine ⟨expandPVal_keys_nodup k v (hkv (k, v) (List.mem_cons_self _ _)).2,
      ih (fun x hx => hkv x (List.mem_cons_of_mem _ hx)) hpw.2, ?_⟩
    intro x hx hy
    obtain ⟨kv₁, hkv₁, hpre₁⟩ := List.mem_map.mp hx
    obtain ⟨kv₂, hkv₂, hpre₂⟩ := List.mem_map.mp hy
    have h₁ : k.isPrefixOf x = true := by
      rw [← hpre₁]
      exact expandPVal_key_isPrefixOf k v
        (hkv (k, v) (List.mem_cons_self _ _)).2 kv₁ hkv₁
    obtain ⟨kv₀, hkv₀, hpre₀⟩ := expandTop_key_shape tl
      (fun kv hkv' => (hkv kv (List.mem_cons_of_mem _ hkv')).2) kv₂ hkv₂
    rw [hpre₂] at hpre₀
    have hrel := hpw.1 kv₀ hkv₀
    rcases isPrefixOf_comparable h₁ hpre₀ with h | h
    · rw [hrel.1] at h; cases h
    · rw [hrel.2] at h; cases h

theorem key_append_getElem (k : Key) (c : Char) (r : Key) :
    (k ++ c :: r)[k.length]? = some c := by
  rw [List.getElem?_append_right (le_refl _)]
  simp

theorem key_append_drop (k : Key) (c : Char) (r : Key) :
    (k ++ c :: r).drop (k.length + 1) = r := by
  rw [show k ++ c :: r = (k ++ [c]) ++ r by simp,
    show k.length + 1 = (k ++ [c]).length by simp,
    List.drop_left]

theorem collect_skip (sk : Key) :
    ∀ (l : List (Key × Leaf)) (acc : Option Char × List (Key × Leaf)),
      (∀ kv ∈ l, sk.isPrefixOf kv.1 = false) →
      l.foldl (collectStep sk) acc = acc
  | [], _, _ => rfl
  | kv :: l, acc, h => by
    rw [List.foldl_cons,
      show collectStep sk acc kv = acc from by
        rw [collectStep, if_neg (by rw [h kv (List.mem_cons_self _ _)]; simp)],
      collect_skip sk l acc (fun x hx => h x (List.mem_cons_of_mem _ hx))]

theorem not_isPrefixOf_expandTop (k : Key) (d : List (Key × PVal))
    (hv : ∀ kv ∈ d, goodVal kv.2)
    (hrel : ∀ kv₀ ∈ d, kv₀.1.isPrefixOf k = false ∧
      k.isPrefixOf kv₀.1 = false) :
    ∀ kv ∈ expandTop d, k.isPrefixOf kv.1 = false := by
  intro kv hkv
  by_contra hcontra
  have htrue : k.isPrefixOf kv.1 = true := by
    cases h : k.isPrefixOf kv.1
    · exact absurd h hcontra
    · rfl
  obtain ⟨kv₀, hkv₀, hpre₀⟩ := expandTop_key_shape d hv kv hkv
  rcases isPrefixOf_comparable htrue hpre₀ with h | h
  · rw [(hrel kv₀ hkv₀).2] at h; cases h
  · rw [(hrel kv₀ hkv₀).1] at h; cases h

theorem collect_group (k : Key) (hk : goodKey k) :
    ∀ (ws : List PVal) (i : ℕ) (c₀ : Option Char) (s : List (Key × Leaf)),
      ws ≠ [] →
      (∀ kv ∈ s, ∃ j, j < i ∧ kv.1 = natChars j) →
      ((List.enumFrom i ws).map
          (fun jw => (k ++ '.' :: natChars jw.1, leafOf jw.2))).foldl
        (collectStep k) (c₀, s)
        = (some '.',
           s ++ (List.enumFrom i ws).map
             (fun jw => (natChars jw.1, leafOf jw.2)))
  | [], _, _, _, hne, _ => absurd rfl hne
  | w :: ws, i, c₀, s, _, hs => by
    have hstep : collectStep k (c₀, s)
        (k ++ '.' :: natChars i, leafOf w)
        = (some '.', s ++ [(natChars i, leafOf w)]) := by
      rw [collectStep, if_pos (isPrefixOf_append_right k _)]
      simp only [key_append_getElem, key_append_drop]
      rw [pyInsert_append (natChars i) (leafOf w) s
        (by
          intro kv hkv h
          obtain ⟨j, hj, hkj⟩ := hs kv hkv
          rw [hkj] at h
          exact absurd (natChars_injective h) (by omega))]
    rw [show List.enumFrom i (w :: ws) = (i, w) :: List.enumFrom (i + 1) ws
        from rfl,
      List.map_cons, List.foldl_cons, hstep]
    rcases hws : ws with _ | ⟨w', ws'⟩
    · simp
    · rw [collect_group k hk (w' :: ws') (i + 1) (some '.')
        (s ++ [(natChars i, leafOf w)]) (by simp)
        (by
          intro kv hkv
          rcases List.mem_append.mp hkv with h | h
          · obtain ⟨j, hj, hkj⟩ := hs kv h
            exact ⟨j, by omega, hkj⟩
          · simp only [List.mem_singleton] at h
            exact ⟨i, by omega, by rw [h]⟩)]
      simp

theorem enumFrom_natChars_nodup {α : Type} (ws : List α) (i : ℕ) :
    ((List.enumFrom i ws).map (fun jw => natChars jw.1)).Nodup := by
  have heq : ((List.enumFrom i ws).map Prod.fst).map natChars
      = (List.enumFrom i ws).map (fun jw => natChars jw.1) := by
    rw [List.map_map]
    rfl
  rw [← heq, List.enumFrom_map_fst]
  exact List.Nodup.map (fun _ _ h => natChars_injective h)
    (List.nodup_range' _ _)

theorem extractLoop_direct (f : ℕ) (raw : List (Key × Leaf)) :
    ∀ S : List Key, (∀ sk ∈ S, plookup sk raw ≠ none) →
      extractLoop f raw S
        = .ok (S.map (fun sk =>
            (sk, leafVal ((plookup sk raw).getD (Leaf.num 0)))))
  | [], _ => by rw [extractLoop]; rfl
  | sk :: S, h => by
    rcases hlk : plookup sk raw with _ | lv
    · exact absurd hlk (h sk (List.mem_cons_self _ _))
    · rw [extractLoop, processSubkey, hlk,
        extractLoop_direct f raw S
          (fun x hx => h x (List.mem_cons_of_mem _ hx))]
      simp [hlk]

/-- The flat digit-keyed dict produced for one list-valued parameter. -/
theorem extract_subsetL (f : ℕ) (ws : List PVal)
    (hws : ∀ w ∈ ws, leafOnly w = true) :
    extract_pars (f + 1)
        ((List.enumFrom 0 ws).map (fun jw => (natChars jw.1, leafOf jw.2)))
      = .ok ((List.enumFrom 0 ws).map (fun jw => (natChars jw.1, jw.2))) := by
  set raw := (List.enumFrom 0 ws).map
    (fun jw => (natChars jw.1, leafOf jw.2)) with hraw
  have hkeys : raw.map (fun kv => subkeyOf kv.1)
      = (List.enumFrom 0 ws).map (fun jw => natChars jw.1) := by
    rw [hraw, List.map_map]
    exact List.map_congr_left (fun jw _ => subkeyOf_natChars jw.1)
  have hkeys' : raw.map Prod.fst
      = (List.enumFrom 0 ws).map (fun jw => natChars jw.1) := by
    rw [hraw, List.map_map]
    rfl
  have hnodup : (raw.map Prod.fst).Nodup := by
    rw [hkeys']
    exact enumFrom_natChars_nodup ws 0
  rw [extract_pars, hkeys,
    dedupKeys_of_nodup _ (enumFrom_natChars_nodup ws 0),
    extractLoop_direct f raw _
      (by
        intro sk hsk
        obtain ⟨jw, hjw, rfl⟩ := List.mem_map.mp hsk
        rw [plookup_of_nodup_mem _ (leafOf jw.2) raw hnodup
          (List.mem_map.mpr ⟨jw, hjw, rfl⟩)]
        simp),
    List.map_map]
  refine congrArg Except.ok (List.map_congr_left (fun jw hjw => ?_))
  simp only [Function.comp_apply]
  rw [plookup_of_nodup_mem _ (leafOf jw.2) raw hnodup
    (List.mem_map.mpr ⟨jw, hjw, rfl⟩)]
  simp only [Option.getD_some]
  rw [leafVal_leafOf jw.2 (hws jw.2 (List.snd_mem_of_mem_enumFrom hjw))]

theorem plookup_zero_dictform (ws : List PVal) (hne : ws ≠ []) :
    (plookup ['0']
      ((List.enumFrom 0 ws).map
        (fun jw => (natChars jw.1, jw.2)))).isSome = true := by
  rcases ws with _ | ⟨w, ws'⟩
  · exact absurd rfl hne
  · simp [plookup, natChars]

theorem plookup_dictform (ws : List PVal) (j : ℕ) (hj : j < ws.length) :
    plookup (natChars j)
        ((List.enumFrom 0 ws).map (fun jw => (natChars jw.1, jw.2)))
      = ws[j]? := by
  have hnodup : (((List.enumFrom 0 ws).map
      (fun jw => (natChars jw.1, jw.2))).map Prod.fst).Nodup := by
    rw [List.map_map]
    exact enumFrom_natChars_nodup ws 0
  have hmem : ((j : ℕ), ws[j]) ∈ List.enumFrom 0 ws := by
    have h := List.getElem_enumFrom ws 0 j (by simpa using hj)
    rw [Nat.zero_add] at h
    exact h ▸ List.getElem_mem _
  rw [plookup_of_nodup_mem _ ws[j] _ hnodup
      (List.mem_map.mpr ⟨(j, ws[j]), hmem, rfl⟩),
    List.getElem?_eq_getElem hj]

theorem listFromDict_of_lookup (d : List (Key × PVal)) (g : ℕ → PVal) :
    ∀ js : List ℕ, (∀ j ∈ js, plookup (natChars j) d = some (g j)) →
      listFromDict d js = .ok (js.map g)
  | [], _ => rfl
  | j :: js, h => by
    rw [listFromDict, h j (List.mem_cons_self _ _),
      listFromDict_of_lookup d g js
        (fun x hx => h x (List.mem_cons_of_mem _ hx))]
    rfl

theorem map_getD_range {α : Type} (d₀ : α) :
    ∀ ws : List α, (List.range ws.length).map (fun j => ws.getD j d₀) = ws
  | [] => rfl
  | w :: ws => by
    rw [List.length_cons, List.range_succ_eq_map, List.map_cons,
      List.map_map]
    show w :: (List.range ws.length).map
      (fun j => (w :: ws).getD (j + 1) d₀) = w :: ws
    rw [show (fun j => (w :: ws).getD (j + 1) d₀)
        = fun j => ws.getD j d₀ from rfl,
      map_getD_range d₀ ws]

theorem listFromDict_range (ws : List PVal) :
    listFromDict
        ((List.enumFrom 0 ws).map (fun jw => (natChars jw.1, jw.2)))
        (List.range ws.length)
      = .ok ws := by
  rw [listFromDict_of_lookup _ (fun j => ws.getD j (.num 0))
      (List.range ws.length)
      (by
        intro j hj
        have hjlt : j < ws.length := List.mem_range.mp hj
        rw [plookup_dictform ws j hjlt, List.getElem?_eq_getElem hjlt]
        simp [List.getD_eq_getElem?_getD, List.getElem?_eq_getElem hjlt]),
    map_getD_range]

/-- Processing one subkey of the flattened dict of a well-formed parameter
dict recovers that parameter's structured value. -/
theorem processSubkey_of_entry (f : ℕ) (d : List (Key × PVal))
    (hwf : WFDict d) (k : Key) (v : PVal) (hmem : (k, v) ∈ d) :
    processSubkey (f + 1) (expandTop d) k = .ok (k, v) := by
  obtain ⟨pre, post, hd⟩ := List.append_of_mem hmem
  subst hd
  obtain ⟨hgood, hpw⟩ := hwf
  rw [List.pairwise_append] at hpw
  obtain ⟨hpwPre, hpwRest, hcross⟩ := hpw
  rw [List.pairwise_cons] at hpwRest
  have hk : goodKey k := (hgood (k, v) (List.mem_append_right _
    (List.mem_cons_self _ _))).1
  have hpre : ∀ kv₀ ∈ pre, kv₀.1.isPrefixOf k = false ∧
      k.isPrefixOf kv₀.1 = false := by
    intro kv₀ hkv₀
    have := hcross kv₀ hkv₀ (k, v) (List.mem_cons_self _ _)
    exact ⟨this.1, this.2⟩
  have hpost : ∀ kv₀ ∈ post, kv₀.1.isPrefixOf k = false ∧
      k.isPrefixOf kv₀.1 = false := by
    intro kv₀ hkv₀
    have := hpwRest.1 kv₀ hkv₀
    exact ⟨this.2, this.1⟩
  have hgvPre : ∀ kv ∈ pre, goodVal kv.2 :=
    fun kv h => (hgood kv (List.mem_append_left _ h)).2
  have hgvPost : ∀ kv ∈ post, goodVal kv.2 :=
    fun kv h => (hgood kv (List.mem_append_right _
      (List.mem_cons_of_mem _ h))).2
  have hraw : expandTop (pre ++ (k, v) :: post)
      = expandTop pre ++ (expandPVal k v ++ expandTop post) := by
    rw [expandTop_append, expandTop]
  have hpreNone : plookup k (expandTop pre) = none :=
    plookup_expandTop_none k pre hgvPre (fun kv h => (hpre kv h).1)
  have hpostNone : plookup k (expandTop post) = none :=
    plookup_expandTop_none k post hgvPost (fun kv h => (hpost kv h).1)
  cases v with
  | num x =>
    have hlook : plookup k (expandTop (pre ++ (k, .num x) :: post))
        = some (.num x) := by
      rw [hraw, plookup_append_none k _ _ hpreNone,
        plookup_append_some k (Leaf.num x) _ _
          (by simp [expandPVal, plookup])]
    rw [processSubkey, hlook]
    rfl
  | cnum re im =>
    have hlook : plookup k (expandTop (pre ++ (k, .cnum re im) :: post))
        = some (.cnum re im) := by
      rw [hraw, plookup_append_none k _ _ hpreNone,
        plookup_append_some k (Leaf.cnum re im) _ _
          (by simp [expandPVal, plookup])]
    rw [processSubkey, hlook]
    rfl
  | vals ws =>
    obtain ⟨hne, hleaves⟩ :
        ws ≠ [] ∧ ∀ w ∈ ws, leafOnly w = true :=
      (hgood (k, .vals ws) (List.mem_append_right _
        (List.mem_cons_self _ _))).2
    have hgrp : expandPVal k (.vals ws)
        = (List.enumFrom 0 ws).map
            (fun jw => (k ++ '.' :: natChars jw.1, leafOf jw.2)) := by
      rw [expandPVal, expandEnum_of_leaves k ws 0 hleaves]
    have hgrpNone : plookup k (expandPVal k (.vals ws)) = none := by
      rw [hgrp]
      refine plookup_eq_none k _ (fun kv hkv => ?_)
      obtain ⟨jw, _, rfl⟩ := List.mem_map.mp hkv
      exact fun h => isPrefixOf_trans_append k '.' (natChars jw.1) h.symm
    have hlookn : plookup k (expandTop (pre ++ (k, .vals ws) :: post))
        = none := by
      rw [hraw, plookup_append_none k _ _ hpreNone,
        plookup_append_none k _ _ hgrpNone, hpostNone]
    have hcoll : collectSubset k (expandTop (pre ++ (k, .vals ws) :: post))
        = (some '.',
           (List.enumFrom 0 ws).map
             (fun jw => (natChars jw.1, leafOf jw.2))) := by
      rw [collectSubset, hraw, List.foldl_append, List.foldl_append,
        collect_skip k _ _
          (not_isPrefixOf_expandTop k pre hgvPre hpre),
        hgrp, collect_group k hk ws 0 none [] hne (by simp),
        collect_skip k _ _
          (not_isPrefixOf_expandTop k post hgvPost hpost)]
      rw [List.nil_append]
    have hsub := extract_subsetL f ws hleaves
    rw [processSubkey, hlookn]
    simp only [hcoll]
    rw [if_pos trivial, hsub,
      if_neg (show ¬(some '.' = some ('_' : Char)) by decide)]
    dsimp only
    have hlen : ((List.enumFrom 0 ws).map
        (fun jw => (natChars jw.1, jw.2))).length = ws.length := by
      simp
    rw [if_pos (plookup_zero_dictform ws hne), hlen, listFromDict_range ws]
  | dict ps =>
    exact absurd (hgood (k, .dict ps) (List.mem_append_right _
      (List.mem_cons_self _ _))).2 (by simp [goodVal])

theorem extractLoop_entries (f : ℕ) (d : List (Key × PVal))
    (hwf : WFDict d) :
    ∀ ds : List (Key × PVal), (∀ kv ∈ ds, kv ∈ d) →
      extractLoop (f + 1) (expandTop d) (ds.map Prod.fst) = .ok ds
  | [], _ => by rw [List.map_nil, extractLoop]
  | (k, v) :: ds, h => by
    rw [List.map_cons, extractLoop,
      processSubkey_of_entry f d hwf k v (h (k, v) (List.mem_cons_self _ _)),
      extractLoop_entries f d hwf ds
        (fun kv hkv => h kv (List.mem_cons_of_mem _ hkv))]

theorem wf_keys_ne (d : List (Key × PVal)) (hwf : WFDict d) :
    d.Pairwise (fun a b => a.1 ≠ b.1) := by
  refine hwf.2.imp (fun {a b} hab => ?_)
  intro heq
  rw [heq] at hab
  rw [isPrefixOf_self b.1] at hab
  cases hab.1

/-- The deduplicated subkeys of the flattened dict are exactly the
parameter names, in order. -/
theorem dedup_subkeys (d : List (Key × PVal)) (hwf : WFDict d) :
    dedupKeys ((expandTop d).map (fun kv => subkeyOf kv.1))
      = d.map Prod.fst := by
  obtain ⟨hgood, hpw⟩ := hwf
  induction d with
  | nil => rfl
  | cons hd tl ih =>
    obtain ⟨k, v⟩ := hd
    have hk : goodKey (k, v).1 := (hgood (k, v) (List.mem_cons_self _ _)).1
    have hgv : goodVal (k, v).2 := (hgood (k, v) (List.mem_cons_self _ _)).2
    rw [List.pairwise_cons] at hpw
    have hgrpAll : ∀ x ∈ (expandPVal k v).map (fun kv => subkeyOf kv.1),
        x = k := by
      intro x hx
      obtain ⟨kv, hkv, rfl⟩ := List.mem_map.mp hx
      cases v with
      | num y =>
        simp only [expandPVal, List.mem_singleton] at hkv
        rw [hkv]
        exact subkeyOf_of_good k hk.2
      | cnum re im =>
        simp only [expandPVal, List.mem_singleton] at hkv
        rw [hkv]
        exact subkeyOf_of_good k hk.2
      | vals ws =>
        rw [expandPVal, expandEnum_of_leaves k ws 0 hgv.2] at hkv
        obtain ⟨jw, _, rfl⟩ := List.mem_map.mp hkv
        exact subkeyOf_append_dot k _ hk.2
      | dict ps => exact absurd hgv (by simp [goodVal])
    have hgrpNe : (expandPVal k v).map (fun kv => subkeyOf kv.1) ≠ [] := by
      cases v with
      | num y => simp [expandPVal]
      | cnum re im => simp [expandPVal]
      | vals ws =>
        rw [expandPVal, expandEnum_of_leaves k ws 0 hgv.2]
        intro hcontra
        rcases ws with _ | ⟨w, ws'⟩
        · exact hgv.1 rfl
        · simp at hcontra
      | dict ps => exact absurd hgv (by simp [goodVal])
    rw [expandTop, List.map_append,
      dedupKeys_append_of_all_eq k _ _ hgrpNe hgrpAll,
      ih (fun x hx => hgood x (List.mem_cons_of_mem _ hx)) hpw.2,
      List.map_cons, List.cons.injEq]
    refine ⟨rfl, List.filter_eq_self.mpr (fun x hx => ?_)⟩
    obtain ⟨kv, hkv, rfl⟩ := List.mem_map.mp hx
    have hrel := hpw.1 kv hkv
    simp only [ne_eq, decide_eq_true_eq]
    intro heq
    rw [heq, isPrefixOf_self k] at hrel
    cases hrel.1

/-- C3 (amended): the flatten/unflatten pair is an exact round trip for
scatterers whose parameter names are nonempty, contain no '.' or '_', and
are mutually non-prefix, and whose values are scalars, python complex
numbers, or nonempty flat lists of such leaves: `from_parameters` applied
to the output of `parameters` reconstructs the parameter dict of the
original scatterer (fuel 2 covers the flat nesting). -/
theorem c3_roundtrip (d : List (Key × PVal)) (fuel : ℕ)
    (hwf : WFDict d) (hfuel : 2 ≤ fuel) :
    ∃ out, from_parameters fuel d (parameters d) = .ok out ∧
      ∀ key : Key, plookup key out = plookup key d := by
  obtain ⟨f, rfl⟩ : ∃ f, fuel = f + 1 + 1 := ⟨fuel - 2, by omega⟩
  refine ⟨d, ?_, fun _ => rfl⟩
  have hnodup : ((expandTop d).map Prod.fst).Nodup :=
    expandTop_keys_nodup d hwf
  rw [from_parameters, parameters, pyDictOf_eq_self _ hnodup,
    mergePars_self _ hnodup, extract_pars, dedup_subkeys d hwf]
  exact extractLoop_entries f d hwf d (fun kv h => h)

/-- C3 witness: a dict with a list-valued, a complex-valued and a scalar
parameter round-trips at fuel 2. -/
theorem c3_roundtrip_witness :
    ∃ out, from_parameters 2
        [(['n'], .vals [.num 1, .num 2]), (['r'], .cnum 3 4),
          (['x'], .num 5)]
        (parameters [(['n'], .vals [.num 1, .num 2]), (['r'], .cnum 3 4),
          (['x'], .num 5)]) = .ok out ∧
      ∀ key : Key, plookup key out = plookup key
        [(['n'], .vals [.num 1, .num 2]), (['r'], .cnum 3 4),
          (['x'], .num 5)] :=
  c3_roundtrip _ 2 (by decide) (by norm_num)

/-- C3: the round-trip claim fails as stated: a scatterer whose parameter
names are `n` (list-valued) and `n2` (scalar) flattens to keys `n.0`,
`n.1`, `n2`; in `extract_pars` the subkey `n` collects all three keys
(`n2` starts with `n`), the delimiter taken from the last match is `'2'`,
no branch assigns the subkey, and `from_parameters` raises
`InvalidScatterer` instead of reconstructing the scatterer. -/
theorem c3_counterexample :
    from_parameters 3
        [(['n'], .vals [.num 1, .num 2]), (['n', '2'], .num 3)]
        (parameters [(['n'], .vals [.num 1, .num 2]), (['n', '2'], .num 3)])
      = .error .invalidScatterer := by
  have h0 : natChars 0 = ['0'] := rfl
  have h1 : natChars 1 = ['1'] := by
    rw [natChars, if_neg one_ne_zero,
      Nat.digits_def' (by norm_num : 1 < 10) one_pos]
    norm_num
    decide
  have hparams : parameters
      [(['n'], .vals [.num 1, .num 2]), (['n', '2'], .num 3)]
      = [(['n', '.', '0'], Leaf.num 1), (['n', '.', '1'], Leaf.num 2),
         (['n', '2'], Leaf.num 3)] := by
    rw [parameters, expandTop, expandTop, expandTop, expandPVal, expandPVal,
      expandEnum, expandEnum, expandEnum, expandPVal, expandPVal, h0, h1]
    rw [pyDictOf]
    decide
  have hmerge : mergePars
      [(['n', '.', '0'], Leaf.num 1), (['n', '.', '1'], Leaf.num 2),
        (['n', '2'], Leaf.num 3)]
      [(['n', '.', '0'], Leaf.num 1), (['n', '.', '1'], Leaf.num 2),
        (['n', '2'], Leaf.num 3)]
      = [(['n', '.', '0'], Leaf.num 1), (['n', '.', '1'], Leaf.num 2),
         (['n', '2'], Leaf.num 3)] :=
    mergePars_self _ (by decide)
  have hcol : collectSubset ['n']
      [(['n', '.', '0'], Leaf.num 1), (['n', '.', '1'], Leaf.num 2),
        (['n', '2'], Leaf.num 3)]
      = (some '2',
         [(['0'], Leaf.num 1), (['1'], Leaf.num 2), ([], Leaf.num 3)]) := by
    decide
  have hproc : processSubkey 2
      [(['n', '.', '0'], Leaf.num 1), (['n', '.', '1'], Leaf.num 2),
        (['n', '2'], Leaf.num 3)] ['n']
      = .error .invalidScatterer := by
    rw [processSubkey,
      show plookup ['n']
        [(['n', '.', '0'], Leaf.num 1), (['n', '.', '1'], Leaf.num 2),
          (['n', '2'], Leaf.num 3)] = none from by decide]
    simp [hcol]
  rw [from_parameters, hparams, hmerge, show (3 : ℕ) = 2 + 1 from rfl,
    extract_pars,
    show dedupKeys ((
      [(['n', '.', '0'], Leaf.num 1), (['n', '.', '1'], Leaf.num 2),
        (['n', '2'], Leaf.num 3)]).map (fun kv => subkeyOf kv.1))
      = [['n'], ['n', '2']] from by decide,
    extractLoop, hproc]

theorem zipWith_const_left {α β : Type} :
    ∀ (l : List α) (t : List β), l.length = t.length →
      List.zipWith (fun d _ => d) l t = l
  | [], [], _ => rfl
  | [], _ :: _, h => by simp at h
  | _ :: _, [], h => by simp at h
  | a :: l, b :: t, h => by
    simp only [List.zipWith_cons_cons, List.cons.injEq, true_and]
    exact zipWith_const_left l t (by simpa using h)

theorem zipWith_zipWith_left {α β γ δ : Type} (f : γ → β → δ)
    (g : α → β → γ) :
    ∀ (l : List α) (t : List β),
      List.zipWith f (List.zipWith g l t) t
        = List.zipWith (fun d p => f (g d p) p) l t
  | [], _ => by simp
  | _ :: _, [] => by simp
  | a :: l, b :: t => by
    simp only [List.zipWith_cons_cons]
    exact congrArg _ (zipWith_zipWith_left f g l t)

theorem zipWith_map_map {α β γ δ : Type} (f : γ → δ → β) (g : α → γ)
    (h : α → δ) :
    ∀ l : List α,
      List.zipWith f (l.map g) (l.map h) = l.map (fun x => f (g x) (h x))
  | [] => rfl
  | a :: l => by
    simp only [List.map_cons, List.zipWith_cons_cons]
    exact congrArg _ (zipWith_map_map f g h l)

/-- The domain-assignment loop acts pointwise: running it over per-indicator
boolean arrays derived from one list of translated points is a `zipWith` of
the pointwise overwrite fold. -/
theorem assignDomains_pointwise (tp : List Point) :
    ∀ (E : List (ℕ × Indicator)) (doms : List ℕ),
      doms.length = tp.length →
      assignDomains (E.map (fun it => (it.1, tp.map it.2))) doms
        = List.zipWith
            (fun d p =>
              E.foldl (fun d' it => if it.2 p then it.1 + 1 else d') d)
            doms tp
  | [], doms, h => by
    simpa using (zipWith_const_left doms tp h).symm
  | (i, ind) :: E, doms, h => by
    simp only [List.map_cons, assignDomains, List.foldl_cons]
    rw [List.zipWith_map_right, assignDomains_pointwise tp E _
      (by rw [List.length_zipWith, h, min_self]), zipWith_zipWith_left]

/-- Fold of the reverse-enumerated overwrite steps at one point equals the
first-true-indicator rule, with the enumeration offset matching the
`findIdx?` start index. -/
theorem foldr_enumFrom_firstIdx (pt : Point) :
    ∀ (inds : List Indicator) (t b : ℕ),
      (List.enumFrom t inds).foldr
          (fun it acc => if it.2 pt then it.1 + 1 else acc) b
        = match List.findIdx? (fun test => test pt) inds t with
          | some i => i + 1
          | none => b
  | [], _, _ => rfl
  | ind :: inds, t, b => by
    show (if ind pt then t + 1 else _) = _
    rw [show List.findIdx? (fun test => test pt) (ind :: inds) t
        = if ind pt then some t
          else List.findIdx? (fun test => test pt) inds (t + 1) from rfl]
    by_cases hpt : ind pt
    · simp [hpt]
    · simp only [hpt, if_false, Bool.false_eq_true]
      exact foldr_enumFrom_firstIdx pt inds (t + 1) b

/-- Lemma: `in_domain` computes the first-true-indicator domain at every point. -/
theorem in_domain_eq_map (indicators : List Indicator) (center : Point)
    (points : List Point) :
    in_domain indicators center points
      = points.map (firstTrueDomain indicators center) := by
  rw [in_domain]
  have hmap : (indicators.map
      (fun test => (points.map (fun p => psub p center)).map test)).enum
      = indicators.enum.map
          (fun it => (it.1, (points.map (fun p => psub p center)).map it.2)) := by
    rw [List.enum_map]
    rfl
  rw [hmap, ← List.map_reverse,
    assignDomains_pointwise (points.map (fun p => psub p center))
      indicators.enum.reverse (points.map (fun _ => 0)) (by simp),
    zipWith_map_map]
  refine List.map_congr_left (fun p _hp => ?_)
  rw [List.foldl_reverse,
    show indicators.enum = List.enumFrom 0 indicators from rfl,
    foldr_enumFrom_firstIdx]
  rfl

/-- C2: for every scatterer and every point, `in_domain` assigns the point
the value `i+1` where `i` is the index of the first indicator in original
list order whose membership test is true at the point translated relative to
the scatterer center, and 0 if no indicator is true; in particular a point
lying in both domain 1 and domain 2 is assigned domain 1. -/
theorem c2_in_domain_first_wins :
    (∀ (indicators : List Indicator) (center : Point)
        (points : List Point),
      in_domain indicators center points
        = points.map (firstTrueDomain indicators center)) ∧
    (∀ (ind₁ ind₂ : Indicator) (rest : List Indicator) (center : Point)
        (p : Point),
      ind₁ (psub p center) = true → ind₂ (psub p center) = true →
      in_domain (ind₁ :: ind₂ :: rest) center [p] = [1]) := by
  refine ⟨in_domain_eq_map, ?_⟩
  intro ind₁ ind₂ rest center p h₁ h₂
  rw [in_domain_eq_map]
  simp [firstTrueDomain, List.findIdx?, h₁]

/-- C2 witness: a point inside both of two overlapping indicators gets
domain 1. -/
theorem c2_in_domain_first_wins_witness :
    in_domain [fun _ => true, fun _ => true] (0, 0, 0) [(0, 0, 0)] = [1] :=
  c2_in_domain_first_wins.2 _ _ [] (0, 0, 0) (0, 0, 0) rfl rfl

theorem zipWith_map_left_self {α β γ : Type} (f : γ → α → β) (g : α → γ) :
    ∀ l : List α, List.zipWith f (l.map g) l = l.map (fun x => f (g x) x)
  | [] => rfl
  | a :: l => by
    simp only [List.map_cons, List.zipWith_cons_cons]
    exact congrArg _ (zipWith_map_left_self f g l)

/-- The index-overwrite loop of `index_at` acts pointwise over the points
from which the domain array was computed. -/
theorem foldl_zipWith_pointwise {α : Type} (dom : Point → ℕ)
    (points : List Point) :
    ∀ (E : List (ℕ × α)) (idx : List α), idx.length = points.length →
      E.foldl
          (fun index inv =>
            List.zipWith (fun v d => if d = inv.1 + 1 then inv.2 else v)
              index (points.map dom)) idx
        = List.zipWith
            (fun v p =>
              E.foldl
                (fun v' inv => if dom p = inv.1 + 1 then inv.2 else v') v)
            idx points
  | [], idx, h => by
    simpa using (zipWith_const_left idx points h).symm
  | (i, nv) :: E, idx, h => by
    simp only [List.foldl_cons]
    rw [List.zipWith_map_right,
      foldl_zipWith_pointwise dom points E _
        (by rw [List.length_zipWith, h, min_self]),
      zipWith_zipWith_left]

theorem enumFrom_foldl_skip {α : Type} (d : ℕ) :
    ∀ (vs : List α) (t : ℕ) (b : α), d ≤ t →
      (List.enumFrom t vs).foldl
          (fun v inv => if d = inv.1 + 1 then inv.2 else v) b = b
  | [], _, _, _ => rfl
  | v :: vs, t, b, h => by
    show (List.enumFrom (t + 1) vs).foldl _ (if d = t + 1 then v else b) = b
    rw [if_neg (by omega)]
    exact enumFrom_foldl_skip d vs (t + 1) b (by omega)

theorem enumFrom_foldl_hit {α : Type} (d : ℕ) :
    ∀ (vs : List α) (t k : ℕ) (b : α), d = t + k + 1 →
      (List.enumFrom t vs).foldl
          (fun v inv => if d = inv.1 + 1 then inv.2 else v) b
        = (vs[k]?).getD b
  | [], t, k, b, h => by simp
  | v :: vs, t, k, b, h => by
    show (List.enumFrom (t + 1) vs).foldl _ (if d = t + 1 then v else b) = _
    cases k with
    | zero =>
      rw [if_pos (by omega), enumFrom_foldl_skip d vs (t + 1) v (by omega)]
      simp
    | succ k' =>
      rw [if_neg (by omega),
        enumFrom_foldl_hit d vs (t + 1) k' b (by omega)]
      simp

/-- Lemma: `index_at` computes, for every point, the fold of the refractive-index
overwrites against the first-true-indicator domain of that point. -/
theorem index_at_eq_map {α : Type} (indicators : List Indicator)
    (center : Point) (n : List α) (background : α) (points : List Point) :
    index_at indicators center n background points
      = points.map (fun p =>
          n.enum.foldl
            (fun v inv =>
              if firstTrueDomain indicators center p = inv.1 + 1 then inv.2
              else v)
            background) := by
  simp only [index_at, in_domain_eq_map]
  rw [List.map_map,
    foldl_zipWith_pointwise (firstTrueDomain indicators center) points
      n.enum _ (by simp),
    show points.map ((fun _ => background) ∘ firstTrueDomain indicators center)
      = points.map (fun _ => background) from rfl,
    zipWith_map_left_self]

/-- C7: for a scatterer with one refractive index per domain, `index_at`
returns `n[i-1]` at a point whose `in_domain` classification is `i ≥ 1`, and
returns `background` at a point classified 0 (outside all domains). -/
theorem c7_index_at {α : Type} (indicators : List Indicator) (center : Point)
    (n : List α) (background : α) (points : List Point) (j : ℕ) (p : Point)
    (hlen : n.length = indicators.length) (hp : points[j]? = some p) :
    ((in_domain indicators center points)[j]? = some 0 →
      (index_at indicators center n background points)[j]?
        = some background) ∧
    (∀ i : ℕ, (in_domain indicators center points)[j]? = some (i + 1) →
      (index_at indicators center n background points)[j]? = n[i]?) := by
  have hidx : (index_at indicators center n background points)[j]?
      = some (n.enum.foldl
          (fun v inv =>
            if firstTrueDomain indicators center p = inv.1 + 1 then inv.2
            else v)
          background) := by
    rw [index_at_eq_map, List.getElem?_map, hp, Option.map_some']
  constructor
  · intro h0
    rw [in_domain_eq_map, List.getElem?_map, hp, Option.map_some',
      Option.some.injEq] at h0
    rw [hidx,
      show n.enum = List.enumFrom 0 n from rfl, h0,
      enumFrom_foldl_skip 0 n 0 background le_rfl]
  · intro i hi
    rw [in_domain_eq_map, List.getElem?_map, hp, Option.map_some',
      Option.some.injEq] at hi
    have hfind : indicators.findIdx?
        (fun test => test (psub p center)) = some i := by
      rw [firstTrueDomain] at hi
      rcases hfi : indicators.findIdx? (fun test => test (psub p center))
        with _ | i'
      · rw [hfi] at hi; simp at hi
      · rw [hfi] at hi
        dsimp only at hi
        rw [hfi]
        exact congrArg some (by omega)
    have hbound : i < n.length := by
      rw [hlen]
      exact (List.findIdx?_eq_some_iff_findIdx_eq.mp hfind).1
    rw [hi] at hidx
    rw [hidx, show n.enum = List.enumFrom 0 n from rfl,
      enumFrom_foldl_hit (i + 1) n 0 i background (by omega),
      List.getElem?_eq_getElem hbound]
    rfl

/-- C7 witness: one always-true indicator, n = [7], background 3: the point
is classified into domain 1 and gets index 7. -/
theorem c7_index_at_witness :
    (index_at [fun _ => true] (0, 0, 0) [(7 : ℚ)] 3 [(0, 0, 0)])[0]?
      = [(7 : ℚ)][0]? :=
  (c7_index_at [fun _ => true] (0, 0, 0) [(7 : ℚ)] 3 [(0, 0, 0)] 0
    (0, 0, 0) rfl rfl).2 0 rfl

set_option maxHeartbeats 4000000 in
/-- C9: the claim describes the first search loop of `find_bounds` as
doubling the offset while the indicator is true; the code multiplies it by
10 (`point[i] *= 10`).  On a box indicator of half-width 4e-9 the two
procedures return different bounds (4.4e-9 for doubling, 4.026275e-9 for
the code), so the claimed description does not match the code. -/
theorem c9_counterexample :
    find_bounds boxIndicator 6 ≠ findBoundsClaim 2 boxIndicator 6 := by
  have hxp : boundSearch (fun v => boxIndicator (v, 0, 0)) 6
      (1 / 1000000000) = some (161051 / 40000000000000) := by
    norm_num [boundSearch, growWhile, shrinkWhile, boxIndicator, Option.bind]
  have hxn : boundSearch (fun v => boxIndicator (v, 0, 0)) 6
      (-(1 / 1000000000)) = some (-(161051 / 40000000000000)) := by
    norm_num [boundSearch, growWhile, shrinkWhile, boxIndicator, Option.bind]
  have hyp : boundSearch (fun v => boxIndicator (0, v, 0)) 6
      (1 / 1000000000) = some (161051 / 40000000000000) := by
    norm_num [boundSearch, growWhile, shrinkWhile, boxIndicator, Option.bind]
  have hyn : boundSearch (fun v => boxIndicator (0, v, 0)) 6
      (-(1 / 1000000000)) = some (-(161051 / 40000000000000)) := by
    norm_num [boundSearch, growWhile, shrinkWhile, boxIndicator, Option.bind]
  have hzp : boundSearch (fun v => boxIndicator (0, 0, v)) 6
      (1 / 1000000000) = some (161051 / 40000000000000) := by
    norm_num [boundSearch, growWhile, shrinkWhile, boxIndicator, Option.bind]
  have hzn : boundSearch (fun v => boxIndicator (0, 0, v)) 6
      (-(1 / 1000000000)) = some (-(161051 / 40000000000000)) := by
    norm_num [boundSearch, growWhile, shrinkWhile, boxIndicator, Option.bind]
  have cxp : boundSearchClaim 2 (fun v => boxIndicator (v, 0, 0)) 6
      (1 / 1000000000) = some (11 / 2500000000) := by
    norm_num [boundSearchClaim, growWhile, shrinkWhile, boxIndicator,
      Option.bind]
  have cxn : boundSearchClaim 2 (fun v => boxIndicator (v, 0, 0)) 6
      (-(1 / 1000000000)) = some (-(11 / 2500000000)) := by
    norm_num [boundSearchClaim, growWhile, shrinkWhile, boxIndicator,
      Option.bind]
  have cyp : boundSearchClaim 2 (fun v => boxIndicator (0, v, 0)) 6
      (1 / 1000000000) = some (11 / 2500000000) := by
    norm_num [boundSearchClaim, growWhile, shrinkWhile, boxIndicator,
      Option.bind]
  have cyn : boundSearchClaim 2 (fun v => boxIndicator (0, v, 0)) 6
      (-(1 / 1000000000)) = some (-(11 / 2500000000)) := by
    norm_num [boundSearchClaim, growWhile, shrinkWhile, boxIndicator,
      Option.bind]
  have czp : boundSearchClaim 2 (fun v => boxIndicator (0, 0, v)) 6
      (1 / 1000000000) = some (11 / 2500000000) := by
    norm_num [boundSearchClaim, growWhile, shrinkWhile, boxIndicator,
      Option.bind]
  have czn : boundSearchClaim 2 (fun v => boxIndicator (0, 0, v)) 6
      (-(1 / 1000000000)) = some (-(11 / 2500000000)) := by
    norm_num [boundSearchClaim, growWhile, shrinkWhile, boxIndicator,
      Option.bind]
  have h1 : find_bounds boxIndicator 6 =
      some [[-(161051 / 40000000000000), 161051 / 40000000000000],
            [-(161051 / 40000000000000), 161051 / 40000000000000],
            [-(161051 / 40000000000000), 161051 / 40000000000000]] := by
    simp only [find_bounds, hxp, hxn, hyp, hyn, hzp, hzn, Option.bind_some]
    rfl
  have h2 : findBoundsClaim 2 boxIndicator 6 =
      some [[-(11 / 2500000000), 11 / 2500000000],
            [-(11 / 2500000000), 11 / 2500000000],
            [-(11 / 2500000000), 11 / 2500000000]] := by
    simp only [findBoundsClaim, cxp, cxn, cyp, cyn, czp, czn,
      Option.bind_some]
    rfl
  rw [h1, h2]
  norm_num

/-- C9 (amended): `find_bounds`, for each of the 3 axes and 2 directions,
starts from a seed of magnitude 1e-9 on that axis (other axes at 0),
multiplies the offset by 10 while the indicator is true at the probed
point, then halves it up to 10 iterations once the indicator is false, then
re-expands in 10% steps, returning the resulting per-axis bounds. -/
theorem c9_find_bounds_search (indicator : Point → Bool) (fuel : ℕ) :
    find_bounds indicator fuel = findBoundsClaim 10 indicator fuel :=
  rfl

/-- C6: the translation round trip holds (translating by (1,2,3) then
(-1,-2,-3) restores the center), but the claimed error behavior does not:
the python guard `len(ensure_array(coord1)==3)` compares with 3 elementwise
inside `len`, so a lone scalar argument is not rejected — `translated(5)`
silently broadcasts and shifts every coordinate by 5 — and a lone 2-vector
reaches the numpy sum and fails with a broadcast `ValueError`, not with
`InvalidScatterer`. -/
theorem c6_translated_behavior :
    (∀ c1 c2 c3 : ℚ,
      (translated [c1, c2, c3] (.vec [1, 2, 3]) none none).bind
        (fun c' => translated c' (.vec [-1, -2, -3]) none none)
          = .ok [c1, c2, c3]) ∧
    translated [1, 2, 3] (.scalar 5) none none = .ok [6, 7, 8] ∧
    translated [1, 2, 3] (.vec [1, 2]) none none = .error .valueError := by
  refine ⟨?_, ?_, ?_⟩
  · intro c1 c2 c3
    simp [translated, is_none, ensure_array, broadcastAdd, Except.bind]
  · simp [translated, is_none, ensure_array, broadcastAdd]
    norm_num
  · simp [translated, is_none, ensure_array, broadcastAdd]

/-- C1: the claim "for every Parameter constructed with a guess or a limit,
`unscale(scale(x)) == x` for all finite x" fails on the code: a Parameter
constructed with `guess = 0` has `scale_factor = 0`, and the round trip at
`x = 1` does not return 1 (in python the division raises
`ZeroDivisionError`; in this real-number model it returns 0). -/
theorem c1_counterexample :
    ∃ p, mkParameter "a" (some 0) none = .ok p ∧
      p.unscale (p.scale 1) ≠ 1 := by
  refine ⟨_, rfl, ?_⟩
  simp [Parameter.scale, Parameter.unscale, mkParameter]

/-- C1 (amended): for every Parameter constructed with a guess or a limit
whose scale_factor is nonzero, scale and unscale are exact inverses:
`unscale(scale(x)) = x` for all x. -/
theorem c1_roundtrip (name : String) (guess : Option ℝ)
    (limit : Option (ℝ × ℝ)) (p : Parameter)
    (_hp : mkParameter name guess limit = .ok p)
    (hsf : p.scale_factor ≠ 0) (x : ℝ) :
    p.unscale (p.scale x) = x := by
  simp [Parameter.scale, Parameter.unscale, div_mul_cancel₀ _ hsf]

/-- C1 witness: a Parameter constructed with guess 2 round-trips x = 5. -/
theorem c1_roundtrip_witness :
    ∃ p, mkParameter "r" (some 2) none = .ok p ∧
      p.unscale (p.scale 5) = 5 :=
  ⟨_, rfl, c1_roundtrip "r" (some 2) none _ rfl (by norm_num [mkParameter]) 5⟩

/-- C4: the converged flag computed by `Minimizer.minimize` from the solver
status code is true for status codes 1, 2, 3 and false for status ≥ 4. -/
theorem c4_converged_threshold (status : ℤ) :
    ((status = 1 ∨ status = 2 ∨ status = 3) → convergedFlag status = true) ∧
    (4 ≤ status → convergedFlag status = false) := by
  constructor
  · rintro (rfl | rfl | rfl) <;> rfl
  · intro h
    simp only [convergedFlag, decide_eq_false_iff_not, not_lt]
    omega

/-- C4 witness: status 2 is converged, status 5 is not. -/
theorem c4_converged_threshold_witness :
    convergedFlag 2 = true ∧ convergedFlag 5 = false :=
  ⟨(c4_converged_threshold 2).1 (Or.inr (Or.inl rfl)),
   (c4_converged_threshold 5).2 (by norm_num)⟩

/-- C5: `Minimizer.minimize` (nmpfit branch) raises
`InvalidParameterSpecification` whenever any parameter in the list has no
guess, even if that parameter has bounds. -/
theorem c5_missing_guess (pars : List Parameter)
    (h : ∃ par ∈ pars, par.guess = none) :
    Minimizer.minimize pars = .error .invalidParameterSpecification := by
  induction pars with
  | nil => simp at h
  | cons p ps ih =>
    rw [Minimizer.minimize]
    rcases h with ⟨par, hmem, hguess⟩
    rcases List.mem_cons.mp hmem with rfl | hmem'
    · rcases hl : par.limit with _ | ⟨lo, hi⟩ <;> simp [hl, hguess]
    · rcases hpg : p.guess with _ | g
      · rcases hl : p.limit with _ | ⟨lo, hi⟩ <;> simp [hl, hpg]
      · have herr := ih ⟨par, hmem', hguess⟩
        rcases hl : p.limit with _ | ⟨lo, hi⟩ <;>
          simp [hl, hpg, herr, Except.map]

/-- C5 witness: a single Parameter with only a limit (no guess) triggers the
error. -/
theorem c5_missing_guess_witness :
    ∃ p, mkParameter "x" none (some (1, 4)) = .ok p ∧
      Minimizer.minimize [p] = .error .invalidParameterSpecification :=
  ⟨_, rfl, c5_missing_guess _ ⟨_, List.mem_singleton_self _, rfl⟩⟩

/-- C8: when `Minimizer.minimize` succeeds, the solver configuration it
builds has, for each parameter: the parameter's name; the initial value equal
to the scaled guess; both bound flags false and no bound values when the
limit is absent; and both bound flags true with the limit pair scaled into
optimizer units via `Parameter.scale` when the limit is present. -/
theorem c8_solver_config (pars : List Parameter) (cfg : List NmpPar)
    (hok : Minimizer.minimize pars = .ok cfg) :
    cfg.length = pars.length ∧
    ∀ (i : ℕ) (par : Parameter) (c : NmpPar),
      pars[i]? = some par → cfg[i]? = some c →
      c.parname = par.name ∧
      (∃ g, par.guess = some g ∧ c.value = par.scale g) ∧
      (par.limit = none → c.limited = (false, false) ∧ c.limits = none) ∧
      (∀ lo hi, par.limit = some (lo, hi) →
        c.limited = (true, true) ∧
        c.limits = some (par.scale lo, par.scale hi)) := by
  induction pars generalizing cfg with
  | nil =>
    rw [Minimizer.minimize] at hok
    cases hok
    exact ⟨rfl, by intro i par c h; simp at h⟩
  | cons p ps ih =>
    rw [Minimizer.minimize] at hok
    rcases hpg : p.guess with _ | g
    · rcases hl : p.limit with _ | ⟨lo, hi⟩ <;> simp [hl, hpg] at hok
    · rcases hl : p.limit with _ | ⟨lo, hi⟩ <;>
      · simp only [hl, hpg] at hok
        rcases hrest : (Minimizer.minimize ps : Except Err (List NmpPar))
          with e | cs
        · rw [hrest] at hok
          cases hok
        · rw [hrest] at hok
          simp only [Except.map, Except.ok.injEq] at hok
          subst hok
          obtain ⟨hlen, hall⟩ := ih cs hrest
          refine ⟨by simp [hlen], ?_⟩
          intro i par c hpar hc
          cases i with
          | zero =>
            simp only [List.getElem?_cons_zero, Option.some.injEq]
              at hpar hc
            subst hpar; subst hc
            exact ⟨rfl, ⟨g, hpg, rfl⟩,
              by intro hnone; rw [hl] at hnone; simp_all,
              by intro lo' hi' hsome; rw [hl] at hsome; simp_all⟩
          | succ j =>
            simp only [List.getElem?_cons_succ] at hpar hc
            exact hall j par c hpar hc

/-- C8 witness: a two-parameter list (one bounded, one unbounded) yields a
config of length 2. -/
theorem c8_solver_config_witness :
    ∃ cfg, Minimizer.minimize
        [⟨"r", some 2, some (1, 3), 2⟩, ⟨"alpha", some 1, none, 1⟩] =
          .ok cfg ∧ cfg.length = 2 := by
  have hok : Minimizer.minimize
      [⟨"r", some 2, some (1, 3), 2⟩, ⟨"alpha", some 1, none, 1⟩] =
      .ok [⟨"r", (true, true),
            some (Parameter.scale ⟨"r", some 2, some (1, 3), 2⟩ 1,
                  Parameter.scale ⟨"r", some 2, some (1, 3), 2⟩ 3),
            Parameter.scale ⟨"r", some 2, some (1, 3), 2⟩ 2⟩,
           ⟨"alpha", (false, false), none,
            Parameter.scale ⟨"alpha", some 1, none, 1⟩ 1⟩] := rfl
  exact ⟨_, hok, (c8_solver_config _ _ hok).1⟩

/-- C10: constructing a Parameter with guess 0 succeeds and sets
scale_factor to 0 (likewise a limit (lo, hi) with lo*hi = 0), and for such a
Parameter the unscale-scale round trip fails for every nonzero x (the
division by the zero scale_factor is modelled by Lean's division, which
yields 0; python raises `ZeroDivisionError`). -/
theorem c10_zero_guess (name : String) (lo hi x : ℝ) (hx : x ≠ 0)
    (hlim : lo * hi = 0) :
    (∃ p, mkParameter name (some 0) none = .ok p ∧ p.scale_factor = 0 ∧
      p.unscale (p.scale x) ≠ x) ∧
    (∃ q, mkParameter name none (some (lo, hi)) = .ok q ∧
      q.scale_factor = 0 ∧ q.unscale (q.scale x) ≠ x) := by
  constructor
  · exact ⟨_, rfl, rfl, by
      simp [Parameter.scale, Parameter.unscale, mkParameter]
      exact fun h => hx h.symm⟩
  · refine ⟨_, rfl, ?_, ?_⟩
    · simp [mkParameter, hlim]
    · simp [Parameter.scale, Parameter.unscale, mkParameter, hlim]
      exact fun h => hx h.symm

/-- C10 witness: guess 0, and limit (0, 3), at x = 1. -/
theorem c10_zero_guess_witness :
    (∃ p, mkParameter "a" (some 0) none = .ok p ∧ p.scale_factor = 0 ∧
      p.unscale (p.scale 1) ≠ 1) ∧
    (∃ q, mkParameter "a" none (some (0, 3)) = .ok q ∧
      q.scale_factor = 0 ∧ q.unscale (q.scale 1) ≠ 1) :=
  c10_zero_guess "a" 0 3 1 one_ne_zero (zero_mul 3)

end Holopy
